import Mathlib

/-!
Verification of the joplin-context-utils context-detection engine and
replacement protocol.

Documents are modelled as `List Char` (absolute character offsets match list
indices).  The CodeMirror syntax tree supplied by the host parser is modelled
by the inductive `MTree`; `tree.iterate` is modelled as a pre-order walk that
visits exactly the nodes whose span overlaps the query range, where an
`enter` callback that returns `false` skips the node's children (the
documented semantics of the lezer iterator).  JavaScript regular expressions
used by the source are translated into structural matchers on `List Char`;
`\s` is the JS whitespace class and case-insensitive matching is modelled on
the ASCII range via `Char.toLower`, which covers every label and URL scheme
the source compares.
-/

namespace ContextUtils

/-- JS regex whitespace class `\s` (ASCII part plus the Unicode space
characters JS includes). -/
def isJsSpace (c : Char) : Bool :=
  c == ' ' || c == '\t' || c == '\n' || c == '\r' ||
  c == '\x0b' || c == '\x0c' || c == ' ' || c == ' ' ||
  (' ' ≤ c && c ≤ ' ') || c == ' ' || c == ' ' ||
  c == ' ' || c == ' ' || c == '　' || c == '﻿'

/-- Hex digit, case-insensitive: the character class `[a-f0-9]` under the
`i` flag of `/^:\/[a-f0-9]{32}(#[^\s]*)?$/i`. -/
def isHexCI (c : Char) : Bool :=
  ('0' ≤ c && c ≤ '9') || ('a' ≤ c && c ≤ 'f') || ('A' ≤ c && c ≤ 'F')

/-- `doc.sliceString f t` for `0 ≤ f ≤ t ≤ doc.length`: the slice `[f, t)`. -/
def sliceDoc (doc : List Char) (f t : Nat) : List Char :=
  (doc.drop f).take (t - f)

/-- Link kinds, from `types.ts` `enum LinkType`. -/
inductive LinkType where
  | ExternalUrl
  | JoplinResource
  | Email
  | InternalAnchor
  deriving DecidableEq

/-- Test of `/^:\/[a-f0-9]{32}(#[^\s]*)?$/i` (`classifyUrl`, rule 1): the
whole string is `:/`, 32 hex digits, then optionally `#` followed by
non-whitespace characters. -/
def matchResource (s : List Char) : Bool :=
  decide (s.take 2 = [':', '/']) &&
  (decide (((s.drop 2).take 32).length = 32) && ((s.drop 2).take 32).all isHexCI &&
    (decide ((s.drop 2).drop 32 = []) ||
      (decide (((s.drop 2).drop 32).take 1 = ['#']) &&
        (((s.drop 2).drop 32).drop 1).all (fun c => !isJsSpace c))))

/-- Test of `/^mailto:/i` (`classifyUrl`, rule 2). -/
def matchMailto (s : List Char) : Bool :=
  decide ((s.take 7).map Char.toLower = "mailto:".toList)

/-- Test of `/^https?:\/\//` (`classifyUrl`, rule 3; no `i` flag). -/
def matchHttp (s : List Char) : Bool :=
  decide (s.take 7 = "http://".toList) || decide (s.take 8 = "https://".toList)

/-- Test of `/^#[^\s]+$/` (`classifyUrl`, rule 4). -/
def matchAnchor (s : List Char) : Bool :=
  decide (s.take 1 = ['#']) && decide (s.drop 1 ≠ []) &&
  (s.drop 1).all (fun c => !isJsSpace c)

/-- `classifyUrl` from `parsingUtils.ts`: the first matching rule wins; the
result carries the unmodified input url together with its `LinkType`, and
`none` models the `null` return for unrecognized input. -/
def classifyUrl (url : List Char) : Option (List Char × LinkType) :=
  if matchResource url then some (url, LinkType.JoplinResource)
  else if matchMailto url then some (url, LinkType.Email)
  else if matchHttp url then some (url, LinkType.ExternalUrl)
  else if matchAnchor url then some (url, LinkType.InternalAnchor)
  else none

/-- Spec-side reading of rule 1: a Joplin resource url is `:/` followed by a
32-hex-character identifier, optionally followed by a `#fragment` of
non-whitespace characters. -/
def specResource (s : List Char) : Prop :=
  ∃ hex tl, s = ':' :: '/' :: (hex ++ tl) ∧ hex.length = 32 ∧
    (∀ c ∈ hex, isHexCI c = true) ∧
    (tl = [] ∨ ∃ f, tl = '#' :: f ∧ ∀ c ∈ f, isJsSpace c = false)

/-- Spec-side reading of rule 2: a case-insensitive `mailto:` prefix. -/
def specEmail (s : List Char) : Prop :=
  "mailto:".toList <+: s.map Char.toLower

/-- Spec-side reading of rule 3: an `http://` or `https://` prefix. -/
def specExternal (s : List Char) : Prop :=
  "http://".toList <+: s ∨ "https://".toList <+: s

/-- Spec-side reading of rule 4: `#` followed by one or more non-whitespace
characters. -/
def specAnchor (s : List Char) : Prop :=
  ∃ r, s = '#' :: r ∧ r ≠ [] ∧ ∀ c ∈ r, isJsSpace c = false

/-! ### Replacement engine (`contentScript.ts` command handlers)

`replaceRange` embeds the `REPLACE_RANGE_COMMAND` handler and `batchReplace`
the `BATCH_REPLACE_COMMAND` handler.  Both return the success boolean together
with the resulting document.  The host editor (`view.dispatch`) rejects a
change whose range is out of bounds by throwing, which the handlers catch and
convert to `false`; this is modelled by the bounds guards.  Batch entries are
modelled as presented in ascending, non-overlapping range order (the order in
which the callers build them; the host additionally sorts specs, which is not
modelled). -/

/-- The `REPLACE_RANGE_COMMAND` handler: validate `from ≤ to`, optionally
compare the current slice against `expectedText`, then apply the single
change (or fail without mutating). -/
def replaceRange (doc newText : List Char) (f t : Nat) (expected : Option (List Char)) :
    Bool × List Char :=
  if f > t then (false, doc)
  else if t > doc.length then (false, doc)
  else
    match expected with
    | some e =>
        if sliceDoc doc f t = e then (true, doc.take f ++ newText ++ doc.drop t)
        else (false, doc)
    | none => (true, doc.take f ++ newText ++ doc.drop t)

/-- One entry of a `BATCH_REPLACE_COMMAND` call:
`{from, to, text, expectedText?}`. -/
structure Repl where
  rfrom : Nat
  rto : Nat
  text : List Char
  expected : Option (List Char)
  deriving DecidableEq

/-- The validation loop of the batch handler: every entry that supplies an
`expectedText` must match the current document slice. -/
def checkAllExpected (doc : List Char) (rs : List Repl) : Bool :=
  rs.all fun r =>
    match r.expected with
    | some e => decide (sliceDoc doc r.rfrom r.rto = e)
    | none => true

/-- Apply a single change to a document. -/
def applyChange (doc : List Char) (r : Repl) : List Char :=
  doc.take r.rfrom ++ r.text ++ doc.drop r.rto

/-- Atomic application of an ascending batch: all ranges refer to the original
document, so the rightmost change is applied first (offset shifting, as done
by the host transaction). -/
def applyChanges (doc : List Char) (rs : List Repl) : List Char :=
  rs.foldr (fun r d => applyChange d r) doc

/-- The batch is acceptable to the host transaction: ranges ascending from
`lo`, non-overlapping, within the document. -/
def wfChangesFrom (doc : List Char) (lo : Nat) : List Repl → Bool
  | [] => true
  | r :: rest =>
      decide (lo ≤ r.rfrom) && decide (r.rfrom ≤ r.rto) &&
      decide (r.rto ≤ doc.length) && wfChangesFrom doc r.rto rest

def wfChanges (doc : List Char) (rs : List Repl) : Bool :=
  wfChangesFrom doc 0 rs

/-- The `BATCH_REPLACE_COMMAND` handler: validate every `expectedText` with
zero mutation applied; on any mismatch abort the whole batch, otherwise apply
all changes as one transaction. -/
def batchReplace (doc : List Char) (rs : List Repl) : Bool × List Char :=
  if checkAllExpected doc rs then
    if wfChanges doc rs then (true, applyChanges doc rs) else (false, doc)
  else (false, doc)

/-- Spec-side atomic multi-range edit: the new document is the concatenation
of the unchanged segments between the (ascending) ranges and the replacement
texts, every offset interpreted against the original document. -/
def specApplySegs (doc : List Char) (pos : Nat) : List Repl → List Char
  | [] => doc.drop pos
  | r :: rest => sliceDoc doc pos r.rfrom ++ r.text ++ specApplySegs doc r.rto rest

def specApply (doc : List Char) (rs : List Repl) : List Char :=
  specApplySegs doc 0 rs

/-! ### Lines (`doc.iterLines` / `doc.lineAt`) -/

/-- Split a document into its lines, separators removed.  A document always
has at least one line; a trailing newline yields a final empty line. -/
def splitLines (doc : List Char) : List (List Char) :=
  match doc with
  | [] => [[]]
  | '\n' :: rest => [] :: splitLines rest
  | c :: rest =>
      match splitLines rest with
      | [] => [[c]]
      | l :: ls => (c :: l) :: ls

/-! ### Footnote definition scan (`findFootnoteDefinition`, `parsingUtils.ts`) -/

/-- Test of `` /^(`{3,}|~{3,})/ `` : the line opens or closes a fenced code
block. -/
def isFenceLine (line : List Char) : Bool :=
  decide (line.take 3 = ['`', '`', '`']) || decide (line.take 3 = ['~', '~', '~'])

/-- Test of `` ^\s*\[\^<label>\]: `` case-insensitively, the label matched
literally (the source escapes its regex metacharacters). -/
def matchFootnoteDefLine (label line : List Char) : Bool :=
  let r := line.dropWhile isJsSpace
  decide (r.take 2 = ['[', '^']) &&
  decide (((r.drop 2).take label.length).map Char.toLower = label.map Char.toLower) &&
  decide (((r.drop 2).drop label.length).take 2 = [']', ':'])

/-- `line.indexOf '['` on a line known to match the definition pattern. -/
def idxOfBracket (line : List Char) : Nat :=
  (line.takeWhile (fun c => c ≠ '[')).length

/-- The line loop of `findFootnoteDefinition`: toggle the fence flag on each
fence line, and return the bracket offset of the first definition line found
outside fenced code. -/
def findFootnoteAux (label : List Char) : List (List Char) → Nat → Bool → Option Nat
  | [], _, _ => none
  | line :: rest, lineStart, inFence =>
      let fence := if isFenceLine line then !inFence else inFence
      if !fence && matchFootnoteDefLine label line then
        some (lineStart + idxOfBracket line)
      else findFootnoteAux label rest (lineStart + line.length + 1) fence

/-- `findFootnoteDefinition` from `parsingUtils.ts`. -/
def findFootnoteDefinition (doc label : List Char) : Option Nat :=
  findFootnoteAux label (splitLines doc) 0 false

/-- Each line annotated with its start offset and its fence state at the time
the source tests it (i.e. after the line's own toggle). -/
def annotateLines : List (List Char) → Nat → Bool → List (Nat × Bool × List Char)
  | [], _, _ => []
  | line :: rest, start, inFence =>
      let fence := if isFenceLine line then !inFence else inFence
      (start, fence, line) :: annotateLines rest (start + line.length + 1) fence

/-- Spec-side footnote lookup: among the annotated lines, the first one that
is outside fenced code and matches the definition pattern; its start offset
plus the offset of its `[`. -/
def specFootnote (doc label : List Char) : Option Nat :=
  ((annotateLines (splitLines doc) 0 false).find? (fun a =>
      !a.2.1 && matchFootnoteDefLine label a.2.2)).map
    (fun a => a.1 + idxOfBracket a.2.2)

/-! ### The host syntax tree

A lezer tree node has a string name, a span `[nfrom, nto]` and ordered
children whose spans are nested inside it.  `visitF f t` models
`tree.iterate from: f, to: t` without an early exit: the pre-order sequence
of the nodes whose span overlaps `[f, t]` (`node.from ≤ t && node.to ≥ f`);
a node that does not overlap is skipped together with its subtree.  `preF`
models the full-document cursor walk (`cursor.next()`). -/

inductive MTree where
  | mk (name : String) (nfrom nto : Nat) (children : List MTree)

def MTree.name : MTree → String
  | .mk n _ _ _ => n

def MTree.nfrom : MTree → Nat
  | .mk _ f _ _ => f

def MTree.nto : MTree → Nat
  | .mk _ _ t _ => t

def MTree.children : MTree → List MTree
  | .mk _ _ _ cs => cs

mutual
def visitT (f t : Nat) : MTree → List MTree
  | .mk nm a b cs => if a ≤ t ∧ f ≤ b then .mk nm a b cs :: visitF f t cs else []
def visitF (f t : Nat) : List MTree → List MTree
  | [] => []
  | c :: cs => visitT f t c ++ visitF f t cs
end

mutual
def preT : MTree → List MTree
  | .mk nm a b cs => .mk nm a b cs :: preF cs
def preF : List MTree → List MTree
  | [] => []
  | c :: cs => preT c ++ preF cs
end

/-! ### Reference definition scan (`findReferenceDefinition`, `parsingUtils.ts`) -/

/-- The child loop of `findReferenceDefinition`: the slice of the last direct
child with the given node name (each hit overwrites the variable). -/
def lastNamedSlice (doc : List Char) (nm : String) (cs : List MTree) : Option (List Char) :=
  cs.foldl (fun acc c => if c.name = nm then some (sliceDoc doc c.nfrom c.nto) else acc) none

/-- The (defLabel, defUrl) pair collected from a `LinkReference`'s direct
children, provided both were found (`defLabel !== null && defUrl !== null`). -/
def refPair (doc : List Char) (cs : List MTree) : Option (List Char × List Char) :=
  match lastNamedSlice doc "LinkLabel" cs, lastNamedSlice doc "URL" cs with
  | some dl, some du => some (dl, du)
  | _, _ => none

mutual
/-- `findReferenceDefinition` at one node: a `LinkReference` whose label and
URL children exist and whose label matches case-insensitively returns its URL
immediately (early exit); otherwise the cursor walk continues into the
children. -/
def findRefT (doc label : List Char) : MTree → Option (List Char)
  | .mk nm _ _ cs =>
      if nm = "LinkReference" then
        match refPair doc cs with
        | some (dl, du) =>
            if dl.map Char.toLower = label.map Char.toLower then some du
            else findRefF doc label cs
        | none => findRefF doc label cs
      else findRefF doc label cs
def findRefF (doc label : List Char) : List MTree → Option (List Char)
  | [] => none
  | c :: cs =>
      match findRefT doc label c with
      | some u => some u
      | none => findRefF doc label cs
end

/-- `findReferenceDefinition` from `parsingUtils.ts`, over the document's
full tree. -/
def findReferenceDefinition (doc label : List Char) (forest : List MTree) :
    Option (List Char) :=
  findRefF doc label forest

/-- The (label, url) pair of a `LinkReference` node, when both children
exist. -/
def refCandidate (doc : List Char) (tr : MTree) : Option (List Char × List Char) :=
  if tr.name = "LinkReference" then refPair doc tr.children else none

/-- Spec-side reference resolution: collect every reference definition in
document (pre-)order and return the URL of the first whose label matches
case-insensitively. -/
def specFirstRef (doc label : List Char) (forest : List MTree) : Option (List Char) :=
  (((preF forest).filterMap (refCandidate doc)).find?
    (fun p => decide (p.1.map Char.toLower = label.map Char.toLower))).map Prod.snd

/-! ### Line lookup (`doc.lineAt`) -/

/-- A document line: its index, its start offset (`line.from`) and its text;
`line.to` is `lstart + text.length`. -/
structure LineView where
  index : Nat
  lstart : Nat
  text : List Char
  deriving DecidableEq

def lineAtAux : List (List Char) → Nat → Nat → Nat → LineView
  | [], idx, start, _ => ⟨idx, start, []⟩
  | l :: ls, idx, start, pos =>
      if pos ≤ start + l.length then ⟨idx, start, l⟩
      else lineAtAux ls (idx + 1) (start + l.length + 1) pos

/-- `doc.lineAt pos`: the line whose span (newline excluded, end inclusive)
contains `pos`. -/
def lineAt (doc : List Char) (pos : Nat) : LineView :=
  lineAtAux (splitLines doc) 0 0 pos

/-! ### Checkbox detection (`detectCheckboxContext`, `contextDetection.ts`) -/

/-- Test of `^(\s*[-*+]\s+)\[([x ])\]`: leading whitespace, a list marker,
at least one whitespace, then `[x]` (checked, lowercase only) or `[ ]`
(unchecked); `none` when the line does not match. -/
def matchCheckbox (line : List Char) : Option Bool :=
  match line.dropWhile isJsSpace with
  | m :: r2 =>
      if m = '-' ∨ m = '*' ∨ m = '+' then
        if (r2.takeWhile isJsSpace).isEmpty then none
        else
          match r2.dropWhile isJsSpace with
          | '[' :: c :: ']' :: _ =>
              if c = 'x' then some true
              else if c = ' ' then some false
              else none
          | _ => none
      else none
  | [] => none

mutual
/-- The gate iterate of `detectCheckboxContext`: walk the nodes at `pos`,
setting the flag on a `Task` node and skipping that node's children. -/
def gateT (pos : Nat) (st : Bool) : MTree → Bool
  | .mk nm a b cs =>
      if a ≤ pos ∧ pos ≤ b then
        if nm = "Task" then true else gateF pos st cs
      else st
def gateF (pos : Nat) (st : Bool) : List MTree → Bool
  | [] => st
  | c :: cs => gateF pos (gateT pos st c) cs
end

/-- The `isInTaskList` flag computed by `detectCheckboxContext`'s iterate. -/
def isInTaskList (pos : Nat) (forest : List MTree) : Bool :=
  gateF pos false forest

/-- `CheckboxContext` minus the constant discriminator. -/
structure CheckboxContext where
  checked : Bool
  lineText : List Char
  cbFrom : Nat
  cbTo : Nat
  deriving DecidableEq

/-- `detectCheckboxContext` from `contextDetection.ts`: gate on a structural
`Task` node at the position, then match the containing line against the
checkbox pattern; the context spans the full line. -/
def detectCheckboxContext (doc : List Char) (forest : List MTree) (pos : Nat) :
    Option CheckboxContext :=
  if isInTaskList pos forest then
    let line := lineAt doc pos
    match matchCheckbox line.text with
    | some chk => some ⟨chk, line.text, line.lstart, line.lstart + line.text.length⟩
    | none => none
  else none

/-- Spec-side reading of the checkbox pattern `^(\s*[-*+]\s+)\[([x ])\]`:
arbitrary leading whitespace, a `-`/`*`/`+` marker, at least one whitespace,
then a bracketed `x` (checked) or space (unchecked); anything may follow. -/
def specCheckbox (line : List Char) (b : Bool) : Prop :=
  ∃ ws m sp c rest,
    line = ws ++ m :: (sp ++ '[' :: c :: ']' :: rest) ∧
    (∀ x ∈ ws, isJsSpace x = true) ∧ (m = '-' ∨ m = '*' ∨ m = '+') ∧
    sp ≠ [] ∧ (∀ x ∈ sp, isJsSpace x = true) ∧
    ((c = 'x' ∧ b = true) ∨ (c = ' ' ∧ b = false))

/-! ### Task selection (`detectTasksInSelection`, `contextDetection.ts`) -/

/-- One detected task line (`TaskInfo`). -/
structure TaskInfo where
  lineText : List Char
  checked : Bool
  tfrom : Nat
  tto : Nat
  deriving DecidableEq

/-- `TaskSelectionContext` minus the constant discriminator. -/
structure TaskSelectionContext where
  tasks : List TaskInfo
  checkedCount : Nat
  uncheckedCount : Nat
  sfrom : Nat
  sto : Nat
  deriving DecidableEq

/-- Push a task line onto the scan state when the checkbox regex matches,
updating the checked/unchecked counters. -/
def taskPush (line : LineView) (st : List TaskInfo × Nat × Nat) :
    List TaskInfo × Nat × Nat :=
  match matchCheckbox line.text with
  | some chk =>
      (st.1 ++ [⟨line.text, chk, line.lstart, line.lstart + line.text.length⟩],
       st.2.1 + (if chk then 1 else 0), st.2.2 + (if chk then 0 else 1))
  | none => st

/-- The dedup test of the task scan: the last pushed task exists and sits on
the given line (`lastTask && doc.lineAt(lastTask.from).number === line.number`). -/
def sameLastLine (doc : List Char) (st : List TaskInfo × Nat × Nat) (line : LineView) :
    Bool :=
  match st.1.getLast? with
  | some last => decide ((lineAt doc last.tfrom).index = line.index)
  | none => false

/-- The `enter` callback of the task scan: on a `Task` node, locate its
containing line, skip it when the previously pushed task is on the same line
(per-line dedup against the last entry only), otherwise apply the checkbox
regex and push. -/
def taskStep (doc : List Char) (st : List TaskInfo × Nat × Nat) (n : MTree) :
    List TaskInfo × Nat × Nat :=
  if n.name = "Task" then
    if sameLastLine doc st (lineAt doc n.nfrom) then st
    else taskPush (lineAt doc n.nfrom) st
  else st

/-- `detectTasksInSelection` from `contextDetection.ts`: iterate the `Task`
nodes intersecting the selection, collect deduplicated task lines and counts,
and produce no context when no task line is found. -/
def detectTasksInSelection (doc : List Char) (forest : List MTree) (f t : Nat) :
    Option TaskSelectionContext :=
  let st := (visitF f t forest).foldl (taskStep doc) ([], 0, 0)
  if st.1 = [] then none else some ⟨st.1, st.2.1, st.2.2, f, t⟩

/-- The visited node sequence is ascending by start position (true of the
pre-order walk of any well-formed syntax tree). -/
def ascFrom : List MTree → Bool
  | [] => true
  | [_] => true
  | a :: b :: r => decide (a.nfrom ≤ b.nfrom) && ascFrom (b :: r)

/-! ### Link selection (`detectLinksInSelection`, `contextDetection.ts`) -/

/-- One detected external link (`LinkInfo`): the URL span, and for markdown
links the full `[text](url)` span. -/
structure LinkInfo where
  url : List Char
  ltype : LinkType
  lfrom : Nat
  lto : Nat
  mdFrom : Option Nat
  mdTo : Option Nat
  deriving DecidableEq

/-- `LinkSelectionContext` minus the constant discriminator. -/
structure LinkSelectionContext where
  links : List LinkInfo
  sfrom : Nat
  sto : Nat
  deriving DecidableEq

/-- `extractUrl`: traverse a link-like node's direct children for the first
`URL` child and return its text together with its span (the later source
revision returns `{url, from, to}`; the traversal is that of
`parsingUtils.ts`). -/
def extractUrl (doc : List Char) (cs : List MTree) : Option (List Char × Nat × Nat) :=
  match cs.find? (fun c => c.name == "URL") with
  | some c => some (sliceDoc doc c.nfrom c.nto, c.nfrom, c.nto)
  | none => none

/-- `urlText.replace(/^<|>$/g, '')`: strip one leading `<` and one trailing
`>`. -/
def stripAngles (s : List Char) : List Char :=
  let s1 := if s.take 1 = ['<'] then s.drop 1 else s
  if s1.getLast? = some '>' then s1.dropLast else s1

/-- The common keep-if-external-and-unseen step of the link scan: markdown
`Link` nodes contribute their URL child (reference links, having no URL
child, contribute nothing); `URL`/`Autolink` nodes contribute their own
angle-stripped text; only external URLs are kept and every contribution is
deduplicated by its exact span against the `seenRanges` set (the second
state component). -/
def pushExternal (st : List LinkInfo × List (Nat × Nat)) (url : List Char)
    (uf ut : Nat) (mdF mdT : Option Nat) : List LinkInfo × List (Nat × Nat) :=
  match classifyUrl url with
  | some (u, LinkType.ExternalUrl) =>
      if (uf, ut) ∈ st.2 then st
      else (st.1 ++ [⟨u, LinkType.ExternalUrl, uf, ut, mdF, mdT⟩], st.2 ++ [(uf, ut)])
  | _ => st

def linkStep (doc : List Char) (st : List LinkInfo × List (Nat × Nat)) (n : MTree) :
    List LinkInfo × List (Nat × Nat) :=
  if n.name = "Link" then
    match extractUrl doc n.children with
    | some (url, uf, ut) => pushExternal st url uf ut (some n.nfrom) (some n.nto)
    | none => st
  else if n.name = "URL" ∨ n.name = "Autolink" then
    pushExternal st (stripAngles (sliceDoc doc n.nfrom n.nto)) n.nfrom n.nto none none
  else st

/-- `detectLinksInSelection` from `contextDetection.ts`. -/
def detectLinksInSelection (doc : List Char) (forest : List MTree) (f t : Nat) :
    Option LinkSelectionContext :=
  let st := (visitF f t forest).foldl (linkStep doc) ([], [])
  if st.1 = [] then none else some ⟨st.1, f, t⟩

/-- The link-scan state invariant: the seen-range set is exactly the spans of
the collected links, those spans are pairwise distinct, and every collected
link is an external URL. -/
def linkInv (st : List LinkInfo × List (Nat × Nat)) : Prop :=
  st.2 = st.1.map (fun i => (i.lfrom, i.lto)) ∧
  st.2.Nodup ∧
  (∀ info ∈ st.1, info.ltype = LinkType.ExternalUrl ∧
    classifyUrl info.url = some (info.url, LinkType.ExternalUrl))

/-! ### Primary context detection (`detectPrimaryContext`, `contextDetection.ts`)

`detectPrimaryContext` iterates the syntax tree at the cursor position with
an `enter` callback that classifies each node by kind (code, link, image,
bare URL/auto-link, HTML image tag) and returns `false` on success.  Per the
lezer iterator semantics, a `false` return skips the successful node's
children but does not stop the walk, so a later overlapping node can
overwrite the context; `pcIterT`/`pcIterF` model exactly that.  When no node
yields a context, footnote detection runs on the current line. -/

/-- `parseInlineCode` from `parsingUtils.ts`: the full text must match
`` /^`(.+)`$/s ``; the content between the backticks is returned. -/
def parseInlineCode (codeText : List Char) : Option (List Char) :=
  match codeText with
  | '`' :: rest =>
      if rest.length ≥ 2 ∧ rest.getLast? = some '`' then some rest.dropLast else none
  | _ => none

/-- The suffixes of a text that begin at a line start (the `^` positions of
an `m`-flagged regex), in document order. -/
def lineSuffixes (s : List Char) : List (List Char) :=
  s :: ((List.range s.length).filterMap
    (fun i => if s.get? i = some '\n' then some (s.drop (i + 1)) else none))

/-- Whether the text begins with a closing fence: three fence characters
followed by `\s*$` (whitespace up to a line end or the end of the text). -/
def closesAt (fence : Char) (r : List Char) : Bool :=
  decide (r.take 3 = [fence, fence, fence]) &&
  (let w := (r.drop 3).dropWhile (fun c => isJsSpace c && !(c = '\n'))
   w.isEmpty || decide (w.take 1 = ['\n']))

/-- The lazy capture `([\s\S]*?)` of the fence fallback: the shortest body
ending just before a closing fence, scanning every position. -/
def captureToCloser (fence : Char) : List Char → Option (List Char)
  | [] => none
  | c :: rest =>
      if closesAt fence (c :: rest) then some []
      else
        match captureToCloser fence rest with
        | some cap => some (c :: cap)
        | none => none

/-- Attempt the fence pattern at one line start: three fence characters, an
info string `[^\n]*`, a newline, then the lazy body up to a closing fence. -/
def openFence (fence : Char) (suffix : List Char) : Option (List Char) :=
  if suffix.take 3 = [fence, fence, fence] then
    match (suffix.drop 3).dropWhile (fun c => !(c = '\n')) with
    | '\n' :: body => captureToCloser fence body
    | _ => none
  else none

/-- The regex fallback of `parseCodeBlock`:
`` /^```[^\n]*\n([\s\S]*?)```\s*$/m `` for a given fence character, trying
line starts left to right. -/
def fenceFallback (fence : Char) (s : List Char) : Option (List Char) :=
  (lineSuffixes s).findSome? (openFence fence)

/-- `parseCodeBlock` from `parsingUtils.ts`: concatenate the text of all
`CodeText` children (they already carry their line terminators); when there
is none, strip the fence markers of the flat node text by regex. -/
def parseCodeBlock (doc : List Char) (node : MTree) : Option (List Char) :=
  let texts := (node.children.filter (fun c => c.name == "CodeText")).map
      (fun c => sliceDoc doc c.nfrom c.nto)
  if texts.isEmpty then
    match fenceFallback '`' (sliceDoc doc node.nfrom node.nto) with
    | some cap => some cap
    | none => fenceFallback '~' (sliceDoc doc node.nfrom node.nto)
  else some texts.flatten

/-- `extractReferenceLabel` from `parsingUtils.ts`: the text of the first
`LinkLabel` child. -/
def extractReferenceLabel (doc : List Char) (cs : List MTree) : Option (List Char) :=
  match cs.find? (fun c => c.name == "LinkLabel") with
  | some c => some (sliceDoc doc c.nfrom c.nto)
  | none => none

/-- `label.replace(/\[\]$/, '')`: strip one trailing `[]` pair. -/
def stripTrailingEmptyBrackets (s : List Char) : List Char :=
  if s.length ≥ 2 ∧ s.drop (s.length - 2) = ['[', ']'] then s.take (s.length - 2) else s

/-- The `/<img\s/i` test of `parseImageTag`: an `<img` (case-insensitive)
followed by a whitespace character, anywhere in the text. -/
def hasImgTag : List Char → Bool
  | [] => false
  | c :: rest =>
      (decide (((c :: rest).take 4).map Char.toLower = "<img".toList) &&
        (match (c :: rest).drop 4 with
         | d :: _ => isJsSpace d
         | [] => false)) || hasImgTag rest

/-- The `/\ssrc=["']([^"']+)["']/i` extraction of `parseImageTag`: scanning
left to right, a whitespace, `src=` (case-insensitive), a quote of either
kind, one or more non-quote characters (the capture), and a quote of either
kind. -/
def findSrc : List Char → Option (List Char)
  | [] => none
  | c :: rest =>
      if isJsSpace c then
        if ((rest.take 4).map Char.toLower = "src=".toList : Bool) then
          match rest.drop 4 with
          | q :: r2 =>
              if q = '"' ∨ q = '\'' then
                let cap := r2.takeWhile (fun ch => !(ch = '"' ∨ ch = '\''))
                if cap ≠ [] ∧ (r2.drop cap.length).take 1 ≠ [] ∧
                    (∀ q2 ∈ (r2.drop cap.length).take 1, q2 = '"' ∨ q2 = '\'') then
                  some cap
                else findSrc rest
              else findSrc rest
          | [] => findSrc rest
        else findSrc rest
      else findSrc rest

/-- `parseImageTag` from `parsingUtils.ts`. -/
def parseImageTag (htmlText : List Char) : Option (List Char × LinkType) :=
  if hasImgTag htmlText then
    match findSrc htmlText with
    | some url => classifyUrl url
    | none => none
  else none

/-- A primary context: code, link (with the optional markdown-link span and
reference flag), or footnote. -/
inductive PrimaryContext where
  | code (codeVal : List Char) (pfrom pto : Nat)
  | link (url : List Char) (ltype : LinkType) (pfrom pto : Nat)
      (mdFrom mdTo : Option Nat) (isRef : Bool)
  | footnote (label : List Char) (targetPos : Nat) (pfrom pto : Nat)
  deriving DecidableEq

/-- The `Link` branch of the `enter` callback: a direct URL child wins with
the URL span and the markdown-link span; otherwise the reference label (the
`LinkLabel` child, or the link's own text with a trailing `[]` stripped when
that child is absent, empty or `[]`) is resolved against the document's
reference definitions and marked `isReferenceLink`. -/
def linkEnter (doc : List Char) (refs : List MTree) (st : Option PrimaryContext)
    (n : MTree) : Option PrimaryContext × Bool :=
  let direct :=
    match extractUrl doc n.children with
    | some (url, uf, ut) =>
        match classifyUrl url with
        | some (u, lt) =>
            some (PrimaryContext.link u lt uf ut (some n.nfrom) (some n.nto) false)
        | none => none
    | none => none
  match direct with
  | some ctx => (some ctx, false)
  | none =>
      let label :=
        match extractReferenceLabel doc n.children with
        | some l =>
            if l = [] ∨ l = ['[', ']'] then
              stripTrailingEmptyBrackets (sliceDoc doc n.nfrom n.nto)
            else l
        | none => stripTrailingEmptyBrackets (sliceDoc doc n.nfrom n.nto)
      if label ≠ [] then
        match findReferenceDefinition doc label refs with
        | some refUrl =>
            match classifyUrl refUrl with
            | some (u, lt) =>
                (some (PrimaryContext.link u lt n.nfrom n.nto none none true), false)
            | none => (st, true)
        | none => (st, true)
      else (st, true)

/-- The `enter` callback of `detectPrimaryContext`: dispatch on the node
kind in source order (inline code / code text, fenced or indented code
block, markdown link, markdown image, bare URL / auto-link, HTML tag or
block); a successful classification overwrites the context and returns
`false` (do not descend), anything else leaves the context and descends. -/
def pcEnter (doc : List Char) (refs : List MTree) (st : Option PrimaryContext)
    (n : MTree) : Option PrimaryContext × Bool :=
  if n.name = "InlineCode" ∨ n.name = "CodeText" then
    match parseInlineCode (sliceDoc doc n.nfrom n.nto) with
    | some codeVal => (some (.code codeVal n.nfrom n.nto), false)
    | none => (st, true)
  else if n.name = "FencedCode" ∨ n.name = "CodeBlock" then
    match parseCodeBlock doc n with
    | some codeVal => (some (.code codeVal n.nfrom n.nto), false)
    | none => (st, true)
  else if n.name = "Link" then linkEnter doc refs st n
  else if n.name = "Image" then
    match extractUrl doc n.children with
    | some (url, _, _) =>
        match classifyUrl url with
        | some (u, lt) => (some (.link u lt n.nfrom n.nto none none false), false)
        | none => (st, true)
    | none => (st, true)
  else if n.name = "URL" ∨ n.name = "Autolink" then
    match classifyUrl (stripAngles (sliceDoc doc n.nfrom n.nto)) with
    | some (u, lt) => (some (.link u lt n.nfrom n.nto none none false), false)
    | none => (st, true)
  else if n.name = "HTMLTag" ∨ n.name = "HTMLBlock" then
    match parseImageTag (sliceDoc doc n.nfrom n.nto) with
    | some (u, lt) => (some (.link u lt n.nfrom n.nto none none false), false)
    | none => (st, true)
  else (st, true)

mutual
/-- The lezer iterate at a point: enter a node when its span touches the
position; when `enter` returns `false` (a successful classification) the
node's children are skipped, but the walk continues with the following
nodes. -/
def pcIterT (doc : List Char) (refs : List MTree) (pos : Nat)
    (st : Option PrimaryContext) : MTree → Option PrimaryContext
  | .mk nm a b cs =>
      if a ≤ pos ∧ pos ≤ b then
        match pcEnter doc refs st (.mk nm a b cs) with
        | (st2, true) => pcIterF doc refs pos st2 cs
        | (st2, false) => st2
      else st
def pcIterF (doc : List Char) (refs : List MTree) (pos : Nat)
    (st : Option PrimaryContext) : List MTree → Option PrimaryContext
  | [] => st
  | c :: cs => pcIterF doc refs pos (pcIterT doc refs pos st c) cs
end

/-- All `[^label]` matches of the footnote regex `/\[\^([^\]]+)\]/g` in a
line, as (start offset, label) pairs in scan order. -/
def scanFootnoteRefs (s : List Char) (idx : Nat) : List (Nat × List Char) :=
  match s with
  | '[' :: '^' :: r =>
      let lab := r.takeWhile (fun c => !(c = ']'))
      if lab ≠ [] ∧ (r.drop lab.length).take 1 = [']'] then
        (idx, lab) :: scanFootnoteRefs (r.drop (lab.length + 1)) (idx + lab.length + 3)
      else scanFootnoteRefs ('^' :: r) (idx + 1)
  | _ :: r => scanFootnoteRefs r (idx + 1)
  | [] => []
termination_by s.length
decreasing_by
  · have := List.length_drop (lab.length + 1) r
    simp
    omega
  · simp
  · simp

/-- The footnote fallback of `detectPrimaryContext`: the first `[^label]`
span of the current line containing the cursor (both brackets inclusive)
whose definition resolves; a reference without a definition does not stop
the scan. -/
def footnoteFallback (doc : List Char) (pos : Nat) : Option PrimaryContext :=
  let line := lineAt doc pos
  let relPos := pos - line.lstart
  (scanFootnoteRefs line.text 0).findSome? (fun p =>
    if p.1 ≤ relPos ∧ relPos ≤ p.1 + p.2.length + 3 then
      match findFootnoteDefinition doc p.2 with
      | some tp =>
          some (.footnote p.2 tp (line.lstart + p.1) (line.lstart + p.1 + p.2.length + 3))
      | none => none
    else none)

/-- `detectPrimaryContext` from `contextDetection.ts`: the tree iterate at
the position, then the footnote fallback when no context was found. -/
def detectPrimaryContext (doc : List Char) (forest : List MTree) (pos : Nat) :
    Option PrimaryContext :=
  match pcIterF doc forest pos none forest with
  | some ctx => some ctx
  | none => footnoteFallback doc pos

/-- The document of the C4 failing input: an inline code span ending exactly
where an autolink begins. -/
def bugDoc : List Char := "`x`<https://e.com>".toList

/-- The parse tree of `bugDoc`. -/
def bugTree : List MTree :=
  [.mk "Document" 0 18 [.mk "Paragraph" 0 18
    [.mk "InlineCode" 0 3 [], .mk "Autolink" 3 18 [.mk "URL" 4 17 []]]]]

theorem matchResource_iff (s : List Char) : matchResource s = true ↔ specResource s := by
  simp only [matchResource, Bool.and_eq_true, Bool.or_eq_true, decide_eq_true_eq,
    List.all_eq_true]
  constructor
  · rintro ⟨h2, ⟨hlen, hall⟩, htail⟩
    have hs : s = ':' :: '/' :: s.drop 2 := by
      conv_lhs => rw [← List.take_append_drop 2 s, h2]
      rfl
    refine ⟨(s.drop 2).take 32, (s.drop 2).drop 32, ?_, hlen, ?_, ?_⟩
    · rw [List.take_append_drop]; exact hs
    · intro c hc; exact hall c hc
    · rcases htail with h | ⟨h1, hws⟩
      · exact Or.inl h
      · right
        have hd : (s.drop 2).drop 32 = '#' :: ((s.drop 2).drop 32).drop 1 := by
          conv_lhs => rw [← List.take_append_drop 1 ((s.drop 2).drop 32), h1]
          rfl
        refine ⟨((s.drop 2).drop 32).drop 1, hd, ?_⟩
        intro c hc
        simpa using hws c hc
  · rintro ⟨hex, tl, hs, hlen, hhex, htail⟩
    subst hs
    have hdrop2 : (':' :: '/' :: (hex ++ tl)).drop 2 = hex ++ tl := rfl
    have htake : (hex ++ tl).take 32 = hex := by
      rw [← hlen]; exact List.take_left hex tl
    have hdrop : (hex ++ tl).drop 32 = tl := by
      rw [← hlen]; exact List.drop_left hex tl
    rw [hdrop2, htake, hdrop]
    refine ⟨rfl, ⟨hlen, fun c hc => hhex c hc⟩, ?_⟩
    rcases htail with h | ⟨f, hf, hws⟩
    · exact Or.inl h
    · subst hf
      right
      exact ⟨rfl, fun c hc => by simpa using hws c hc⟩

theorem matchMailto_iff (s : List Char) : matchMailto s = true ↔ specEmail s := by
  simp only [matchMailto, decide_eq_true_eq, specEmail]
  rw [List.prefix_iff_eq_take, show ("mailto:".toList).length = 7 from rfl, ← List.map_take]
  exact ⟨fun h => h.symm, fun h => h.symm⟩

theorem matchHttp_iff (s : List Char) : matchHttp s = true ↔ specExternal s := by
  simp only [matchHttp, Bool.or_eq_true, decide_eq_true_eq, specExternal]
  rw [List.prefix_iff_eq_take, List.prefix_iff_eq_take,
    show ("http://".toList).length = 7 from rfl, show ("https://".toList).length = 8 from rfl]
  constructor <;> intro h <;> exact h.imp Eq.symm Eq.symm

theorem matchAnchor_iff (s : List Char) : matchAnchor s = true ↔ specAnchor s := by
  simp only [matchAnchor, Bool.and_eq_true, decide_eq_true_eq, List.all_eq_true]
  constructor
  · rintro ⟨⟨h1, hne⟩, hws⟩
    have hs : s = '#' :: s.drop 1 := by
      conv_lhs => rw [← List.take_append_drop 1 s, h1]
      rfl
    refine ⟨s.drop 1, hs, hne, ?_⟩
    intro c hc; simpa using hws c hc
  · rintro ⟨r, hs, hne, hws⟩
    subst hs
    exact ⟨⟨rfl, hne⟩, fun c hc => by simpa using hws c hc⟩

/-- C3: `classifyUrl` is total and deterministic, returning exactly one of
{resource, email, external, anchor, null}, decided by the first matching rule
in the order resource, mailto, http(s), anchor; any other input yields null.
Being a pure Lean function it never throws and is idempotent by construction. -/
theorem claim_C3 (s : List Char) :
    (classifyUrl s = some (s, LinkType.JoplinResource) ↔ specResource s)
    ∧ (classifyUrl s = some (s, LinkType.Email) ↔ ¬ specResource s ∧ specEmail s)
    ∧ (classifyUrl s = some (s, LinkType.ExternalUrl) ↔
        ¬ specResource s ∧ ¬ specEmail s ∧ specExternal s)
    ∧ (classifyUrl s = some (s, LinkType.InternalAnchor) ↔
        ¬ specResource s ∧ ¬ specEmail s ∧ ¬ specExternal s ∧ specAnchor s)
    ∧ (classifyUrl s = none ↔
        ¬ specResource s ∧ ¬ specEmail s ∧ ¬ specExternal s ∧ ¬ specAnchor s) := by
  have hr := matchResource_iff s
  have hm := matchMailto_iff s
  have hh := matchHttp_iff s
  have ha := matchAnchor_iff s
  simp only [classifyUrl]
  by_cases h1 : matchResource s = true
  · simp only [h1, if_true]
    refine ⟨?_, ?_, ?_, ?_, ?_⟩ <;> simp_all [hr.mp h1]
  · have h1' : ¬ specResource s := fun hc => h1 (hr.mpr hc)
    simp only [Bool.not_eq_true] at h1
    simp only [h1, Bool.false_eq_true, if_false]
    by_cases h2 : matchMailto s = true
    · simp only [h2, if_true]
      refine ⟨?_, ?_, ?_, ?_, ?_⟩ <;> simp_all [hm.mp h2]
    · have h2' : ¬ specEmail s := fun hc => h2 (hm.mpr hc)
      simp only [Bool.not_eq_true] at h2
      simp only [h2, Bool.false_eq_true, if_false]
      by_cases h3 : matchHttp s = true
      · simp only [h3, if_true]
        refine ⟨?_, ?_, ?_, ?_, ?_⟩ <;> simp_all [hh.mp h3]
      · have h3' : ¬ specExternal s := fun hc => h3 (hh.mpr hc)
        simp only [Bool.not_eq_true] at h3
        simp only [h3, Bool.false_eq_true, if_false]
        by_cases h4 : matchAnchor s = true
        · simp only [h4, if_true]
          refine ⟨?_, ?_, ?_, ?_, ?_⟩ <;> simp_all [ha.mp h4]
        · have h4' : ¬ specAnchor s := fun hc => h4 (ha.mpr hc)
          simp only [Bool.not_eq_true] at h4
          simp only [h4, Bool.false_eq_true, if_false]
          refine ⟨?_, ?_, ?_, ?_, ?_⟩ <;> simp_all

theorem applyChanges_spec (doc : List Char) (rs : List Repl) (lo : Nat)
    (h : wfChangesFrom doc lo rs = true) :
    (applyChanges doc rs).take lo = doc.take lo ∧
    (applyChanges doc rs).drop lo = specApplySegs doc lo rs := by
  induction rs generalizing lo with
  | nil => exact ⟨rfl, rfl⟩
  | cons r rest ih =>
      simp only [wfChangesFrom, Bool.and_eq_true, decide_eq_true_eq] at h
      obtain ⟨⟨⟨hlo, hfr⟩, hto⟩, hrest⟩ := h
      obtain ⟨ihtake, ihdrop⟩ := ih r.rto hrest
      have hlen : (applyChanges doc rest).length ≥ r.rto := by
        have : ((applyChanges doc rest).take r.rto).length = (doc.take r.rto).length := by
          rw [ihtake]
        simp only [List.length_take] at this
        omega
      have htakef : (applyChanges doc rest).take r.rfrom = doc.take r.rfrom := by
        have h1 : (applyChanges doc rest).take r.rfrom =
            ((applyChanges doc rest).take r.rto).take r.rfrom := by
          rw [List.take_take, Nat.min_eq_left hfr]
        rw [h1, ihtake, List.take_take, Nat.min_eq_left hfr]
      have hlentake : ((applyChanges doc rest).take r.rfrom).length = r.rfrom := by
        simp only [List.length_take]
        omega
      constructor
      · show ((applyChanges doc rest).take r.rfrom ++ r.text ++
          (applyChanges doc rest).drop r.rto).take lo = doc.take lo
        rw [List.append_assoc, List.take_append_of_le_length (by omega), htakef,
          List.take_take, Nat.min_eq_left (by omega)]
      · show ((applyChanges doc rest).take r.rfrom ++ r.text ++
          (applyChanges doc rest).drop r.rto).drop lo = _
        rw [List.append_assoc, List.drop_append_of_le_length (by omega), htakef, ihdrop]
        show (doc.take r.rfrom).drop lo ++ _ = _
        rw [List.drop_take r.rfrom lo doc]
        simp [specApplySegs, sliceDoc, List.append_assoc]

/-- C2: batch replacement is all-or-nothing.  If any entry whose
`expectedText` is supplied mismatches the current content at its range, the
call returns false and the document is unchanged; if every supplied
`expectedText` matches (and the ranges form a valid ascending transaction),
all substitutions are applied as one atomic multi-range edit against the
original offsets and the call returns true. -/
theorem claim_C2 (doc : List Char) (rs : List Repl) :
    ((∃ r ∈ rs, ∃ e, r.expected = some e ∧ sliceDoc doc r.rfrom r.rto ≠ e) →
      batchReplace doc rs = (false, doc))
    ∧ ((∀ r ∈ rs, ∀ e, r.expected = some e → sliceDoc doc r.rfrom r.rto = e) →
        wfChanges doc rs = true →
        batchReplace doc rs = (true, specApply doc rs)) := by
  constructor
  · rintro ⟨r, hmem, e, hexp, hne⟩
    have hchk : checkAllExpected doc rs = false := by
      apply Bool.eq_false_iff.mpr
      intro hall
      have := List.all_eq_true.mp hall r hmem
      rw [hexp] at this
      exact hne (decide_eq_true_eq.mp this)
    simp [batchReplace, hchk]
  · intro hall hwf
    have hchk : checkAllExpected doc rs = true := by
      apply List.all_eq_true.mpr
      intro r hmem
      cases hexp : r.expected with
      | none => rfl
      | some e => exact decide_eq_true_eq.mpr (hall r hmem e hexp)
    have happ := (applyChanges_spec doc rs 0 hwf).2
    simp only [List.drop_zero] at happ
    simp [batchReplace, hchk, hwf, happ, specApply]

theorem claim_C2_witness :
    batchReplace "- [ ] A\n- [x] B".toList
        [⟨3, 4, "x".toList, some " ".toList⟩, ⟨11, 12, " ".toList, some "z".toList⟩] =
      (false, "- [ ] A\n- [x] B".toList)
    ∧ batchReplace "- [ ] A\n- [x] B".toList
        [⟨3, 4, "x".toList, some " ".toList⟩, ⟨11, 12, " ".toList, some "x".toList⟩] =
      (true, "- [x] A\n- [ ] B".toList) := by
  constructor
  · exact (claim_C2 "- [ ] A\n- [x] B".toList
      [⟨3, 4, "x".toList, some " ".toList⟩, ⟨11, 12, " ".toList, some "z".toList⟩]).1
      (by decide)
  · have h := (claim_C2 "- [ ] A\n- [x] B".toList
      [⟨3, 4, "x".toList, some " ".toList⟩, ⟨11, 12, " ".toList, some "x".toList⟩]).2
      (by decide) (by decide)
    exact h.trans (by decide)

/-- C1: the single-replacement concurrency guard.  With `expectedText`
supplied and a valid range: on slice mismatch the call fails and the document
is byte-identical; on match it succeeds and the resulting document is the old
one with `[from,to)` replaced by `newText`. -/
theorem claim_C1 (doc newText e : List Char) (f t : Nat) (hft : f ≤ t) (ht : t ≤ doc.length) :
    (sliceDoc doc f t ≠ e → replaceRange doc newText f t (some e) = (false, doc))
    ∧ (sliceDoc doc f t = e →
        replaceRange doc newText f t (some e) = (true, doc.take f ++ newText ++ doc.drop t)) := by
  constructor
  · intro hne
    simp [replaceRange, Nat.not_lt.mpr hft, Nat.not_lt.mpr ht, hne]
  · intro heq
    simp [replaceRange, Nat.not_lt.mpr hft, Nat.not_lt.mpr ht, heq]

theorem claim_C1_witness :
    replaceRange "hello".toList "EY".toList 1 3 (some "el".toList) = (true, "hEYlo".toList)
    ∧ replaceRange "hello".toList "EY".toList 1 3 (some "xx".toList) =
      (false, "hello".toList) := by
  constructor
  · have h := (claim_C1 "hello".toList "EY".toList "el".toList 1 3
      (by decide) (by decide)).2 (by decide)
    exact h.trans (by decide)
  · exact (claim_C1 "hello".toList "EY".toList "xx".toList 1 3
      (by decide) (by decide)).1 (by decide)

/-- C10: an empty batch passes the validation loop vacuously, dispatches a
transaction with zero changes, returns true and leaves the document
unchanged. -/
theorem claim_C10 (doc : List Char) : batchReplace doc [] = (true, doc) := by
  simp [batchReplace, checkAllExpected, wfChanges, wfChangesFrom, applyChanges]

theorem findFootnoteAux_spec (label : List Char) (lines : List (List Char))
    (start : Nat) (inFence : Bool) :
    findFootnoteAux label lines start inFence =
      ((annotateLines lines start inFence).find? (fun a =>
          !a.2.1 && matchFootnoteDefLine label a.2.2)).map
        (fun a => a.1 + idxOfBracket a.2.2) := by
  induction lines generalizing start inFence with
  | nil => rfl
  | cons line rest ih =>
      simp only [findFootnoteAux, annotateLines, List.find?]
      by_cases h : (!(if isFenceLine line then !inFence else inFence)
          && matchFootnoteDefLine label line) = true
      · simp [h]
      · rw [Bool.not_eq_true] at h
        simp only [h, if_false, Bool.false_eq_true, cond_false]
        exact ih _ _

/-- Labels that agree after lowercasing produce identical line matches. -/
theorem matchFootnoteDefLine_ci (l1 l2 line : List Char)
    (h : l1.map Char.toLower = l2.map Char.toLower) :
    matchFootnoteDefLine l1 line = matchFootnoteDefLine l2 line := by
  have hlen : l1.length = l2.length := by
    have := congrArg List.length h
    simpa using this
  simp only [matchFootnoteDefLine, hlen, h]

theorem findFootnoteAux_ci (l1 l2 : List Char)
    (h : l1.map Char.toLower = l2.map Char.toLower) :
    ∀ (lines : List (List Char)) (start : Nat) (inFence : Bool),
      findFootnoteAux l1 lines start inFence = findFootnoteAux l2 lines start inFence := by
  intro lines
  induction lines with
  | nil => intro _ _; rfl
  | cons line rest ih =>
      intro start inFence
      simp only [findFootnoteAux, matchFootnoteDefLine_ci l1 l2 line h]
      split
      all_goals split
      all_goals first | rfl | exact ih _ _

/-- C6: `findFootnoteDefinition` equals the spec-side scan that only selects
definition lines outside fenced code (so a definition that exists only inside
a fenced block is never returned and yields `none`, and with both an in-code
and an out-of-code definition the first out-of-code one wins); the label is
matched case-insensitively; concretely, a `[^1]:` only inside a fence gives
`none` while an out-of-code `[^1]:` after the fence is found at its line
start. -/
theorem claim_C6 (doc label : List Char) :
    (findFootnoteDefinition doc label = specFootnote doc label)
    ∧ (∀ label2, label.map Char.toLower = label2.map Char.toLower →
        findFootnoteDefinition doc label = findFootnoteDefinition doc label2)
    ∧ (findFootnoteDefinition "```\n[^1]: in\n```".toList "1".toList = none)
    ∧ (findFootnoteDefinition "```\n[^1]: in\n```\n[^1]: out".toList "1".toList
        = some 17) := by
  refine ⟨findFootnoteAux_spec label (splitLines doc) 0 false, ?_, by decide, by decide⟩
  intro label2 hl
  unfold findFootnoteDefinition
  exact findFootnoteAux_ci label label2 hl (splitLines doc) 0 false

mutual
theorem findRefT_spec (doc label : List Char) (tr : MTree) :
    findRefT doc label tr =
      (((preT tr).filterMap (refCandidate doc)).find?
        (fun p => decide (p.1.map Char.toLower = label.map Char.toLower))).map Prod.snd := by
  cases tr with
  | mk nm a b cs =>
      rw [findRefT, preT]
      by_cases hnm : nm = "LinkReference"
      · have hc : refCandidate doc (.mk nm a b cs) = refPair doc cs := by
          simp only [refCandidate, MTree.name, MTree.children, hnm, if_pos]
        rw [if_pos hnm, List.filterMap_cons, hc]
        cases hp : refPair doc cs with
        | none => exact findRefF_spec doc label cs
        | some p =>
            obtain ⟨dl, du⟩ := p
            rw [List.find?]
            by_cases hm : dl.map Char.toLower = label.map Char.toLower
            · simp [hm]
            · simp only [decide_eq_true_eq]
              rw [if_neg hm]
              have : decide ((dl, du).1.map Char.toLower = label.map Char.toLower) = false := by
                simpa using hm
              rw [this]
              simp only [cond_false]
              exact findRefF_spec doc label cs
      · have hc : refCandidate doc (.mk nm a b cs) = none := by
          simp only [refCandidate, MTree.name, hnm, if_false]
        rw [if_neg hnm, List.filterMap_cons, hc]
        exact findRefF_spec doc label cs
theorem findRefF_spec (doc label : List Char) (ts : List MTree) :
    findRefF doc label ts =
      (((preF ts).filterMap (refCandidate doc)).find?
        (fun p => decide (p.1.map Char.toLower = label.map Char.toLower))).map Prod.snd := by
  cases ts with
  | nil => rfl
  | cons c cs =>
      rw [findRefF, preF, List.filterMap_append, List.find?_append]
      rw [findRefT_spec doc label c]
      cases (((preT c).filterMap (refCandidate doc)).find?
          (fun p => decide (p.1.map Char.toLower = label.map Char.toLower))) with
      | none => exact findRefF_spec doc label cs
      | some p => rfl
end

/-- C5: reference-definition resolution compares labels case-insensitively
and, when several definitions share a label, returns the URL of the first
one in document order (`none` when no definition matches).  Concretely, with
`[1]: https://first.com` before `[1]: https://second.com`, label `[1]`
resolves to `https://first.com`. -/
theorem claim_C5 (doc label : List Char) (forest : List MTree) :
    (findReferenceDefinition doc label forest = specFirstRef doc label forest)
    ∧ (∀ label2, label.map Char.toLower = label2.map Char.toLower →
        findReferenceDefinition doc label forest = findReferenceDefinition doc label2 forest)
    ∧ (findReferenceDefinition
        "[1]: https://first.com\n[1]: https://second.com".toList "[1]".toList
        [.mk "Document" 0 46
          [.mk "LinkReference" 0 22 [.mk "LinkLabel" 0 3 [], .mk "URL" 5 22 []],
           .mk "LinkReference" 23 46 [.mk "LinkLabel" 23 26 [], .mk "URL" 28 46 []]]]
        = some "https://first.com".toList) := by
  refine ⟨findRefF_spec doc label forest, ?_, by decide⟩
  intro label2 hl
  unfold findReferenceDefinition
  rw [findRefF_spec doc label forest, findRefF_spec doc label2 forest, hl]

theorem dropWhile_append_all {p : Char → Bool} (l1 l2 : List Char)
    (h : ∀ x ∈ l1, p x = true) : (l1 ++ l2).dropWhile p = l2.dropWhile p := by
  induction l1 with
  | nil => rfl
  | cons a l1 ih =>
      simp only [List.cons_append, List.dropWhile_cons, h a (by simp), if_true]
      exact ih (fun x hx => h x (by simp [hx]))

theorem takeWhile_append_all {p : Char → Bool} (l1 l2 : List Char)
    (h : ∀ x ∈ l1, p x = true) : (l1 ++ l2).takeWhile p = l1 ++ l2.takeWhile p := by
  induction l1 with
  | nil => rfl
  | cons a l1 ih =>
      simp only [List.cons_append, List.takeWhile_cons, h a (by simp), if_true]
      rw [ih (fun x hx => h x (by simp [hx]))]

theorem matchCheckbox_iff (line : List Char) (b : Bool) :
    matchCheckbox line = some b ↔ specCheckbox line b := by
  constructor
  · intro h
    rw [matchCheckbox.eq_def] at h
    split at h
    next m r2 hd =>
      split at h
      next hm =>
        split at h
        next hsp => simp at h
        next hsp =>
          split at h
          next c rest hdw =>
            rw [Bool.not_eq_true] at hsp
            have hspne : r2.takeWhile isJsSpace ≠ [] := by
              intro he; rw [he] at hsp; simp at hsp
            refine ⟨line.takeWhile isJsSpace, m, r2.takeWhile isJsSpace, c, rest,
              ?_, ?_, hm, hspne, ?_, ?_⟩
            · conv_lhs => rw [← List.takeWhile_append_dropWhile isJsSpace line, hd]
              rw [← hdw, List.takeWhile_append_dropWhile isJsSpace r2]
            · intro x hx; exact List.mem_takeWhile_imp hx
            · intro x hx; exact List.mem_takeWhile_imp hx
            · split at h
              next hcx => exact Or.inl ⟨hcx, (Option.some_inj.mp h).symm⟩
              next hcx =>
                split at h
                next hcs => exact Or.inr ⟨hcs, (Option.some_inj.mp h).symm⟩
                next hcs => simp at h
          next hdw => simp at h
      next hm => simp at h
    next hd => simp at h
  · rintro ⟨ws, m, sp, c, rest, hline, hws, hm, hspne, hsp, hc⟩
    have hmns : isJsSpace m = false := by
      rcases hm with h | h | h <;> subst h <;> decide
    have hd : line.dropWhile isJsSpace = m :: (sp ++ '[' :: c :: ']' :: rest) := by
      rw [hline, dropWhile_append_all ws _ hws, List.dropWhile_cons, hmns]
      simp
    have htw : (sp ++ '[' :: c :: ']' :: rest).takeWhile isJsSpace = sp := by
      rw [takeWhile_append_all sp _ hsp, List.takeWhile_cons]
      simp [isJsSpace]
    have hdw : (sp ++ '[' :: c :: ']' :: rest).dropWhile isJsSpace =
        '[' :: c :: ']' :: rest := by
      rw [dropWhile_append_all sp _ hsp, List.dropWhile_cons]
      simp [isJsSpace]
    have hne : sp.isEmpty = false := by
      cases sp with
      | nil => exact absurd rfl hspne
      | cons _ _ => rfl
    simp only [matchCheckbox.eq_def, hd]
    rw [if_pos hm, htw, hdw, hne]
    simp only [Bool.false_eq_true, if_false]
    rcases hc with ⟨hcx, hb⟩ | ⟨hcs, hb⟩
    · subst hcx; subst hb; simp
    · subst hcs; subst hb; simp

mutual
theorem gateT_eq (pos : Nat) (st : Bool) (tr : MTree) :
    gateT pos st tr = (st || (visitT pos pos tr).any (fun n => n.name == "Task")) := by
  cases tr with
  | mk nm a b cs =>
      rw [gateT, visitT]
      by_cases hov : a ≤ pos ∧ pos ≤ b
      · rw [if_pos hov, if_pos hov]
        by_cases hnm : nm = "Task"
        · subst hnm
          simp [MTree.name]
        · rw [if_neg hnm]
          rw [gateF_eq pos st cs]
          have : ((MTree.mk nm a b cs).name == "Task") = false := by
            simp [MTree.name, hnm]
          simp [this]
      · rw [if_neg hov, if_neg hov]
        simp
theorem gateF_eq (pos : Nat) (st : Bool) (ts : List MTree) :
    gateF pos st ts = (st || (visitF pos pos ts).any (fun n => n.name == "Task")) := by
  cases ts with
  | nil => simp [gateF, visitF]
  | cons c cs =>
      rw [gateF, visitF, gateF_eq pos (gateT pos st c) cs, gateT_eq pos st c]
      simp [List.any_append, Bool.or_assoc]
end

/-- C9: a Checkbox context is produced at a position exactly when the
position lies inside a structural `Task` node and the containing line
matches the checkbox pattern; its `checked` flag comes from the bracket
character (lowercase `x` only — uppercase `X` does not match at all), its
span is the full line, and a literal `- [ ] Task` inside a fenced code block
(whose tree has no `Task` node) yields no context. -/
theorem claim_C9 (doc : List Char) (forest : List MTree) (pos : Nat) :
    (detectCheckboxContext doc forest pos =
      if (visitF pos pos forest).any (fun n => n.name == "Task") then
        (matchCheckbox (lineAt doc pos).text).map
          (fun chk => ⟨chk, (lineAt doc pos).text, (lineAt doc pos).lstart,
            (lineAt doc pos).lstart + (lineAt doc pos).text.length⟩)
      else none)
    ∧ (∀ line b, matchCheckbox line = some b ↔ specCheckbox line b)
    ∧ matchCheckbox "- [X] Task".toList = none
    ∧ detectCheckboxContext "```\n- [ ] Task\n```".toList
        [.mk "Document" 0 18 [.mk "FencedCode" 0 18 [.mk "CodeText" 4 14 []]]] 6 = none
    ∧ detectCheckboxContext "- [ ] Task".toList
        [.mk "Document" 0 10 [.mk "BulletList" 0 10 [.mk "ListItem" 0 10
          [.mk "Task" 0 10 [.mk "TaskMarker" 2 5 []]]]]] 7 =
        some ⟨false, "- [ ] Task".toList, 0, 10⟩ := by
  refine ⟨?_, matchCheckbox_iff, by decide, by decide, by decide⟩
  unfold detectCheckboxContext isInTaskList
  rw [gateF_eq pos false forest]
  simp only [Bool.false_or]
  by_cases hg : (visitF pos pos forest).any (fun n => n.name == "Task") = true
  · rw [if_pos hg, if_pos hg]
    cases matchCheckbox (lineAt doc pos).text <;> rfl
  · rw [Bool.not_eq_true] at hg
    rw [hg]
    simp

theorem lineAtAux_index_ge (ls : List (List Char)) (idx start pos : Nat) :
    idx ≤ (lineAtAux ls idx start pos).index := by
  induction ls generalizing idx start with
  | nil => exact Nat.le_refl idx
  | cons l ls ih =>
      rw [lineAtAux]
      split
      · exact Nat.le_refl idx
      · exact Nat.le_trans (Nat.le_succ idx) (ih (idx + 1) (start + l.length + 1))

theorem lineAtAux_index_mono (ls : List (List Char)) (idx start p1 p2 : Nat) (h : p1 ≤ p2) :
    (lineAtAux ls idx start p1).index ≤ (lineAtAux ls idx start p2).index := by
  induction ls generalizing idx start with
  | nil => exact Nat.le_refl idx
  | cons l ls ih =>
      rw [lineAtAux, lineAtAux]
      by_cases h2 : p2 ≤ start + l.length
      · rw [if_pos (Nat.le_trans h h2), if_pos h2]
      · rw [if_neg h2]
        by_cases h1 : p1 ≤ start + l.length
        · rw [if_pos h1]
          exact Nat.le_trans (Nat.le_succ idx) (lineAtAux_index_ge _ _ _ _)
        · rw [if_neg h1]
          exact ih (idx + 1) (start + l.length + 1)

theorem lineAtAux_lstart_ge (ls : List (List Char)) (idx start pos : Nat) :
    start ≤ (lineAtAux ls idx start pos).lstart := by
  induction ls generalizing idx start with
  | nil => exact Nat.le_refl start
  | cons l ls ih =>
      rw [lineAtAux]
      split
      · exact Nat.le_refl start
      · exact Nat.le_trans (by omega) (ih (idx + 1) (start + l.length + 1))

/-- Looking up the start offset of a line yields that same line. -/
theorem lineAtAux_self (ls : List (List Char)) (idx start pos : Nat) :
    lineAtAux ls idx start (lineAtAux ls idx start pos).lstart =
      lineAtAux ls idx start pos := by
  induction ls generalizing idx start with
  | nil => rfl
  | cons l ls ih =>
      by_cases hp : pos ≤ start + l.length
      · have hr : lineAtAux (l :: ls) idx start pos = ⟨idx, start, l⟩ := by
          rw [lineAtAux, if_pos hp]
        rw [hr]
        show lineAtAux (l :: ls) idx start start = ⟨idx, start, l⟩
        rw [lineAtAux, if_pos (by omega)]
      · have hr : lineAtAux (l :: ls) idx start pos =
            lineAtAux ls (idx + 1) (start + l.length + 1) pos := by
          rw [lineAtAux, if_neg hp]
        rw [hr]
        have hge := lineAtAux_lstart_ge ls (idx + 1) (start + l.length + 1) pos
        rw [lineAtAux, if_neg (by omega)]
        exact ih (idx + 1) (start + l.length + 1)

theorem lineAt_self (doc : List Char) (pos : Nat) :
    lineAt doc (lineAt doc pos).lstart = lineAt doc pos :=
  lineAtAux_self (splitLines doc) 0 0 pos

theorem lineAt_index_mono (doc : List Char) (p1 p2 : Nat) (h : p1 ≤ p2) :
    (lineAt doc p1).index ≤ (lineAt doc p2).index :=
  lineAtAux_index_mono (splitLines doc) 0 0 p1 p2 h

theorem filter_length_add {α : Type} (l : List α) (p : α → Bool) :
    (l.filter p).length + (l.filter (fun x => !(p x))).length = l.length := by
  induction l with
  | nil => rfl
  | cons a l ih =>
      by_cases h : p a = true
      · simp [List.filter_cons, h, ← ih]
        omega
      · rw [Bool.not_eq_true] at h
        simp [List.filter_cons, h, ← ih]
        omega

/-- The invariant of the task-scan fold: the counters count the pushed tasks,
pushed tasks sit on strictly increasing lines bounded by `b`, and every
remaining node starts on a line at or after `b`. -/
theorem taskFold_inv (doc : List Char) (ns : List MTree) :
    ∀ (st : List TaskInfo × Nat × Nat) (b : Nat),
      st.2.1 = (st.1.filter (fun ti => ti.checked)).length →
      st.2.2 = (st.1.filter (fun ti => !ti.checked)).length →
      (st.1.map (fun ti => (lineAt doc ti.tfrom).index)).Chain' (· < ·) →
      (∀ ti ∈ st.1, (lineAt doc ti.tfrom).index ≤ b) →
      (∀ n ∈ ns, b ≤ (lineAt doc n.nfrom).index) →
      ((ns.map MTree.nfrom).Pairwise (· ≤ ·)) →
      ((ns.foldl (taskStep doc) st).2.1 =
          ((ns.foldl (taskStep doc) st).1.filter (fun ti => ti.checked)).length ∧
       (ns.foldl (taskStep doc) st).2.2 =
          ((ns.foldl (taskStep doc) st).1.filter (fun ti => !ti.checked)).length ∧
       ((ns.foldl (taskStep doc) st).1.map
          (fun ti => (lineAt doc ti.tfrom).index)).Chain' (· < ·)) := by
  induction ns with
  | nil => exact fun st b h1 h2 h3 _ _ _ => ⟨h1, h2, h3⟩
  | cons n rest ih =>
      intro st b h1 h2 h3 hbd hb hasc
      rw [List.foldl_cons]
      have hbn : b ≤ (lineAt doc n.nfrom).index := hb n (by simp)
      have hbrest : ∀ m ∈ rest, (lineAt doc n.nfrom).index ≤ (lineAt doc m.nfrom).index := by
        intro m hm
        rw [List.map_cons, List.pairwise_cons] at hasc
        exact lineAt_index_mono doc n.nfrom m.nfrom (hasc.1 m.nfrom (List.mem_map_of_mem _ hm))
      have hascrest : (rest.map MTree.nfrom).Pairwise (· ≤ ·) := by
        rw [List.map_cons, List.pairwise_cons] at hasc
        exact hasc.2
      -- case analysis on the step
      by_cases hnm : n.name = "Task"
      · rw [taskStep, if_pos hnm]
        have hpush_case :
            (∀ x, st.1.getLast? = some x →
              (lineAt doc x.tfrom).index ≠ (lineAt doc n.nfrom).index) →
            ((rest.foldl (taskStep doc) (taskPush (lineAt doc n.nfrom) st)).2.1 =
              ((rest.foldl (taskStep doc) (taskPush (lineAt doc n.nfrom) st)).1.filter
                (fun ti => ti.checked)).length ∧
             (rest.foldl (taskStep doc) (taskPush (lineAt doc n.nfrom) st)).2.2 =
              ((rest.foldl (taskStep doc) (taskPush (lineAt doc n.nfrom) st)).1.filter
                (fun ti => !ti.checked)).length ∧
             ((rest.foldl (taskStep doc) (taskPush (lineAt doc n.nfrom) st)).1.map
                (fun ti => (lineAt doc ti.tfrom).index)).Chain' (· < ·)) := by
          intro hnodup
          cases hmc : matchCheckbox (lineAt doc n.nfrom).text with
          | none =>
              have hpu : taskPush (lineAt doc n.nfrom) st = st := by rw [taskPush, hmc]
              rw [hpu]
              exact ih st (lineAt doc n.nfrom).index h1 h2 h3
                (fun ti hti => Nat.le_trans (hbd ti hti) hbn) hbrest hascrest
          | some chk =>
              have hpu : taskPush (lineAt doc n.nfrom) st =
                  (st.1 ++ [⟨(lineAt doc n.nfrom).text, chk, (lineAt doc n.nfrom).lstart,
                    (lineAt doc n.nfrom).lstart + (lineAt doc n.nfrom).text.length⟩],
                   st.2.1 + (if chk then 1 else 0), st.2.2 + (if chk then 0 else 1)) := by
                rw [taskPush, hmc]
              rw [hpu]
              have heidx : (lineAt doc ((lineAt doc n.nfrom).lstart)).index =
                  (lineAt doc n.nfrom).index := by rw [lineAt_self]
              refine ih _ (lineAt doc n.nfrom).index ?_ ?_ ?_ ?_ hbrest hascrest
              · show st.2.1 + _ = (List.filter _ (st.1 ++ _)).length
                rw [List.filter_append, List.length_append, ← h1]
                cases chk <;> simp [List.filter_cons]
              · show st.2.2 + _ = (List.filter _ (st.1 ++ _)).length
                rw [List.filter_append, List.length_append, ← h2]
                cases chk <;> simp [List.filter_cons]
              · show (List.map _ (st.1 ++ _)).Chain' (· < ·)
                rw [List.map_append, List.chain'_append]
                refine ⟨h3, by simp, ?_⟩
                intro x hx y hy
                simp only [List.map_cons, List.map_nil, List.head?_cons,
                  Option.mem_def, Option.some_inj] at hy
                have hy2 : y = (lineAt doc n.nfrom).index := by
                  rw [← hy]
                  exact heidx
                subst hy2
                rw [Option.mem_def, List.getLast?_map] at hx
                obtain ⟨last, hlast, hlx⟩ := Option.map_eq_some'.mp hx
                have hmem : last ∈ st.1 := by
                  rcases List.mem_getLast?_eq_getLast (l := st.1) (x := last)
                    (by rw [Option.mem_def]; exact hlast) with ⟨hne0, hx0⟩
                  rw [hx0]
                  exact List.getLast_mem hne0
                have hle : (lineAt doc last.tfrom).index ≤ b := hbd last hmem
                have hne2 := hnodup last hlast
                rw [← hlx]
                omega
              · intro ti hti
                rw [List.mem_append] at hti
                rcases hti with hti | hti
                · exact Nat.le_trans (hbd ti hti) hbn
                · simp only [List.mem_singleton] at hti
                  subst hti
                  show (lineAt doc ((lineAt doc n.nfrom).lstart)).index ≤ _
                  rw [heidx]
        by_cases hsame : sameLastLine doc st (lineAt doc n.nfrom) = true
        · rw [if_pos hsame]
          exact ih st (lineAt doc n.nfrom).index h1 h2 h3
            (fun ti hti => Nat.le_trans (hbd ti hti) hbn) hbrest hascrest
        · rw [if_neg hsame]
          refine hpush_case ?_
          intro x hx heq
          apply hsame
          rw [sameLastLine, hx]
          exact decide_eq_true heq
      · have hstep : taskStep doc st n = st := by rw [taskStep, if_neg hnm]
        rw [hstep]
        exact ih st (lineAt doc n.nfrom).index h1 h2 h3
          (fun ti hti => Nat.le_trans (hbd ti hti) hbn) hbrest hascrest

theorem ascFrom_chain (ns : List MTree) (h : ascFrom ns = true) :
    (ns.map MTree.nfrom).Chain' (· ≤ ·) := by
  induction ns with
  | nil => simp
  | cons a ns ih =>
      cases ns with
      | nil => simp
      | cons b r =>
          rw [ascFrom, Bool.and_eq_true, decide_eq_true_eq] at h
          rw [List.map_cons, List.map_cons, List.chain'_cons]
          refine ⟨h.1, ?_⟩
          have := ih h.2
          rwa [List.map_cons] at this

theorem ascFrom_pairwise (ns : List MTree) (h : ascFrom ns = true) :
    (ns.map MTree.nfrom).Pairwise (· ≤ ·) :=
  List.chain'_iff_pairwise.mp (ascFrom_chain ns h)

/-- C7: the task scan returns at most one `TaskInfo` per document line even
when nested `Task` nodes share a line; `checkedCount` counts the returned
tasks with `checked = true`, `uncheckedCount` those with `checked = false`,
and they sum to `tasks.length`; with no task line the fold stays empty and no
context is produced.  Concretely, selecting `- [ ] A` and `- [x] B` yields
two tasks with counts 1/1. -/
theorem claim_C7 (doc : List Char) (forest : List MTree) (f t : Nat)
    (hasc : ascFrom (visitF f t forest) = true) :
    (∀ ctx, detectTasksInSelection doc forest f t = some ctx →
      ctx.tasks ≠ [] ∧
      (ctx.tasks.map (fun ti => (lineAt doc ti.tfrom).index)).Pairwise (· ≠ ·) ∧
      ctx.checkedCount = (ctx.tasks.filter (fun ti => ti.checked)).length ∧
      ctx.uncheckedCount = (ctx.tasks.filter (fun ti => !ti.checked)).length ∧
      ctx.checkedCount + ctx.uncheckedCount = ctx.tasks.length)
    ∧ (((visitF f t forest).foldl (taskStep doc) ([], 0, 0)).1 = [] →
        detectTasksInSelection doc forest f t = none)
    ∧ detectTasksInSelection "- [ ] A\n- [x] B".toList
        [.mk "Document" 0 15 [.mk "BulletList" 0 15
          [.mk "ListItem" 0 7 [.mk "Task" 0 7 [.mk "TaskMarker" 2 5 []]],
           .mk "ListItem" 8 15 [.mk "Task" 8 15 [.mk "TaskMarker" 10 13 []]]]]] 0 15 =
        some ⟨[⟨"- [ ] A".toList, false, 0, 7⟩, ⟨"- [x] B".toList, true, 8, 15⟩],
          1, 1, 0, 15⟩ := by
  have hinv := taskFold_inv doc (visitF f t forest) ([], 0, 0) 0
    (by simp) (by simp) (by simp) (by simp) (by simp)
    (ascFrom_pairwise _ hasc)
  obtain ⟨hc, hu, hch⟩ := hinv
  refine ⟨?_, ?_, by decide⟩
  · intro ctx hctx
    simp only [detectTasksInSelection] at hctx
    split at hctx
    · exact absurd hctx (by simp)
    · next hne =>
      have hctx' := Option.some_inj.mp hctx
      subst hctx'
      refine ⟨hne, ?_, hc, hu, ?_⟩
      · have hpw : ((((visitF f t forest).foldl (taskStep doc) ([], 0, 0)).1.map
            (fun ti => (lineAt doc ti.tfrom).index)).Pairwise (· < ·)) :=
          List.chain'_iff_pairwise.mp hch
        exact hpw.imp (fun h => Nat.ne_of_lt h)
      · rw [hc, hu]
        exact filter_length_add _ _
  · intro hempty
    simp only [detectTasksInSelection]
    rw [if_pos hempty]

theorem claim_C7_witness :
    detectTasksInSelection "- [ ] A\n- [x] B".toList
        [.mk "Document" 0 15 [.mk "BulletList" 0 15
          [.mk "ListItem" 0 7 [.mk "Task" 0 7 [.mk "TaskMarker" 2 5 []]],
           .mk "ListItem" 8 15 [.mk "Task" 8 15 [.mk "TaskMarker" 10 13 []]]]]] 0 15 =
      some ⟨[⟨"- [ ] A".toList, false, 0, 7⟩, ⟨"- [x] B".toList, true, 8, 15⟩],
        1, 1, 0, 15⟩ :=
  (claim_C7 "- [ ] A\n- [x] B".toList
    [.mk "Document" 0 15 [.mk "BulletList" 0 15
      [.mk "ListItem" 0 7 [.mk "Task" 0 7 [.mk "TaskMarker" 2 5 []]],
       .mk "ListItem" 8 15 [.mk "Task" 8 15 [.mk "TaskMarker" 10 13 []]]]]] 0 15
    (by decide)).2.2

/-- `classifyUrl` always echoes its input as the `url` field. -/
theorem classifyUrl_fst (s : List Char) (p : List Char × LinkType)
    (h : classifyUrl s = some p) : p.1 = s := by
  unfold classifyUrl at h
  split_ifs at h <;> simp_all <;> exact congrArg Prod.fst h.symm

theorem pushExternal_inv (st : List LinkInfo × List (Nat × Nat)) (url : List Char)
    (uf ut : Nat) (mdF mdT : Option Nat) (h : linkInv st) :
    linkInv (pushExternal st url uf ut mdF mdT) := by
  obtain ⟨hseen, hnd, hext⟩ := h
  rw [pushExternal]
  split
  · next u heq =>
    split
    · exact ⟨hseen, hnd, hext⟩
    · next hmem =>
      have hu : u = url := classifyUrl_fst url (u, LinkType.ExternalUrl) heq
      refine ⟨?_, ?_, ?_⟩
      · show st.2 ++ [(uf, ut)] = List.map _ (st.1 ++ _)
        rw [List.map_append, hseen]
        rfl
      · show (st.2 ++ [(uf, ut)]).Nodup
        rw [List.nodup_append]
        refine ⟨hnd, List.nodup_singleton _, ?_⟩
        intro a ha hb
        rw [List.mem_singleton] at hb
        subst hb
        exact hmem ha
      · intro info hinfo
        rw [List.mem_append] at hinfo
        rcases hinfo with hinfo | hinfo
        · exact hext info hinfo
        · rw [List.mem_singleton] at hinfo
          subst hinfo
          refine ⟨rfl, ?_⟩
          show classifyUrl u = some (u, LinkType.ExternalUrl)
          rw [hu] at heq ⊢
          exact heq
  · exact ⟨hseen, hnd, hext⟩

theorem linkStep_inv (doc : List Char) (st : List LinkInfo × List (Nat × Nat))
    (n : MTree) (h : linkInv st) : linkInv (linkStep doc st n) := by
  rw [linkStep]
  split
  · split
    · exact pushExternal_inv _ _ _ _ _ _ h
    · exact h
  · split
    · exact pushExternal_inv _ _ _ _ _ _ h
    · exact h

theorem linkFold_inv (doc : List Char) (ns : List MTree)
    (st : List LinkInfo × List (Nat × Nat)) (h : linkInv st) :
    linkInv (ns.foldl (linkStep doc) st) := by
  induction ns generalizing st with
  | nil => exact h
  | cons n rest ih => exact ih _ (linkStep_inv doc st n h)

/-- C8: the link scan keeps only external http(s) links, excludes
reference-style links (a `Link` node without a `URL` child contributes
nothing), and deduplicates by exact span, so the same URL span is never
reported twice even when multiple node types overlap it; concretely an
auto-link node nested inside a generic URL match of the same span yields
exactly one entry, and a reference-style link alone yields no context. -/
theorem claim_C8 (doc : List Char) (forest : List MTree) (f t : Nat) :
    (∀ ctx, detectLinksInSelection doc forest f t = some ctx →
      ctx.links ≠ [] ∧
      (∀ info ∈ ctx.links, info.ltype = LinkType.ExternalUrl ∧
        classifyUrl info.url = some (info.url, LinkType.ExternalUrl)) ∧
      (ctx.links.map (fun i => (i.lfrom, i.lto))).Nodup)
    ∧ (detectLinksInSelection "https://a.com".toList
        [.mk "Paragraph" 0 13 [.mk "URL" 0 13 [.mk "Autolink" 0 13 []]]] 0 13 =
        some ⟨[⟨"https://a.com".toList, LinkType.ExternalUrl, 0, 13, none, none⟩], 0, 13⟩)
    ∧ (detectLinksInSelection "[ref][1]".toList
        [.mk "Paragraph" 0 8 [.mk "Link" 0 8 [.mk "LinkLabel" 5 8 []]]] 0 8 = none) := by
  refine ⟨?_, by decide, by decide⟩
  intro ctx hctx
  have hinv := linkFold_inv doc (visitF f t forest) ([], [])
    ⟨rfl, List.nodup_nil, by intro info h; cases h⟩
  obtain ⟨hseen, hnd, hext⟩ := hinv
  simp only [detectLinksInSelection] at hctx
  split at hctx
  · exact absurd hctx (by simp)
  · next hne =>
    have hctx' := Option.some_inj.mp hctx
    subst hctx'
    refine ⟨hne, hext, ?_⟩
    rw [← hseen]
    exact hnd

/-- C4 (failing input): at position 3 — touching both the inline-code node
`[0,3]` and the autolink `[3,18]` — the inline-code node is entered first
and classifies successfully as a code context, yet `detectPrimaryContext`
returns the autolink's link context: the `enter` callback's `false` return
only skips the node's children in the lezer iterator, it does not stop the
iteration (contrary to the source's `Stop iteration` comments), so the later
successful node overwrites the earlier one and the first successful
classification is lost. -/
theorem claim_C4 :
    detectPrimaryContext bugDoc bugTree 3 =
      some (.link "https://e.com".toList LinkType.ExternalUrl 3 18 none none false)
    ∧ (pcEnter bugDoc bugTree none (.mk "InlineCode" 0 3 [])).1 =
        some (.code "x".toList 0 3)
    ∧ detectPrimaryContext bugDoc bugTree 3 ≠ some (.code "x".toList 0 3) := by
  refine ⟨by decide, by decide, by decide⟩

theorem claim_C5_witness :
    findReferenceDefinition "[a]: https://x.com".toList "[A]".toList
      [.mk "LinkReference" 0 18 [.mk "LinkLabel" 0 3 [], .mk "URL" 5 18 []]]
    = findReferenceDefinition "[a]: https://x.com".toList "[a]".toList
      [.mk "LinkReference" 0 18 [.mk "LinkLabel" 0 3 [], .mk "URL" 5 18 []]] :=
  (claim_C5 "[a]: https://x.com".toList "[A]".toList
    [.mk "LinkReference" 0 18 [.mk "LinkLabel" 0 3 [], .mk "URL" 5 18 []]]).2.1
    "[a]".toList (by decide)

end ContextUtils
